import Mathlib

/-!
Verification of the genetic-algorithm notebook (biscuit placement on a dough
roll).  The Python source is shallowly embedded: chromosomes are `List Int`
(one item-type identifier per strip position, `-1` = empty), catalogs are
partial maps `Int → Option Biscuit` (a Python dict lookup that can raise
`KeyError` is a lookup returning `none`), per-position defect maps are
association lists in insertion order, scores are exact rationals, and every
fallible Python computation returns `Option`.  Randomness (breakpoints, parent
sampling, coin flips, mutation draws) is passed in explicitly as oracle
functions, so theorems quantify over every possible random outcome.
-/

namespace GA

/-- Python `range(start, stop)` over machine integers. -/
def intRange (start stop : Int) : List Int :=
  (List.range (stop - start).toNat).map (fun (k : Nat) => start + (k : Int))

/-- Python `int()` applied to a rational: truncation toward zero. -/
def pyInt (q : ℚ) : Int :=
  if 0 ≤ q then ⌊q⌋ else ⌈q⌉

/-- Python slice `l[k:]` for a possibly negative index `k`. -/
def pySlice {α : Type} (l : List α) (k : Int) : List α :=
  if 0 ≤ k then l.drop k.toNat else l.drop (l.length - (-k).toNat)

/-- Effectful map over a list in the `Option` monad; `none` models a raised
exception anywhere in the traversal. -/
def mapOpt {α β : Type} (f : α → Option β) : List α → Option (List β)
  | [] => some []
  | x :: xs =>
    match f x, mapOpt f xs with
    | some y, some ys => some (y :: ys)
    | _, _ => none

/-- Python `min` over a list of rationals; raises (returns `none`) on `[]`. -/
def pyMin : List ℚ → Option ℚ
  | [] => none
  | x :: xs => some (xs.foldl min x)

/-- Python `for a in assigned: unassigned.remove(a)`: erase the first
occurrence of each element of `assigned` from `unassigned` in order. -/
def removeAll (unassigned assigned : List Int) : List Int :=
  assigned.foldl (fun u a => u.erase a) unassigned

/-- Catalog entry: `biscuits_list[id] = {"value": v, "size": s, "threshold": t}`. -/
structure Biscuit where
  value : Int
  size : Int
  threshold : List (String × Int)
deriving DecidableEq

/-- One step of the accumulation `pos_defects[key] += roll_defects[pos][key]`.
The accumulator `pos_defects` starts as the dict with keys a, b, c; a defect
class outside that set raises `KeyError` (modelled as `none`). -/
def addPosDefects (acc : Option (Int × Int × Int)) (kv : String × Int) :
    Option (Int × Int × Int) :=
  match acc with
  | none => none
  | some (a, b, c) =>
    if kv.1 = "a" then some (a + kv.2, b, c)
    else if kv.1 = "b" then some (a, b + kv.2, c)
    else if kv.1 = "c" then some (a, b, c + kv.2)
    else none

/-- Sum of the a, b, c defect counts over the positions in `[start, stop)`. -/
def sumDefects (roll_defects : Int → List (String × Int)) (start stop : Int) :
    Option (Int × Int × Int) :=
  (intRange start stop).foldl
    (fun acc p => (roll_defects p).foldl addPosDefects acc) (some (0, 0, 0))

/-- Python `all(threshold[key] >= pos_defects[key] for key in pos_defects.keys())`:
checks keys in insertion order a, b, c; the generator short-circuits on the
first failing comparison, so a missing threshold key only raises `KeyError`
(`none`) when it is actually reached. -/
def checkThreshold (threshold : List (String × Int)) (counts : Int × Int × Int) :
    Option Bool :=
  match threshold.lookup "a" with
  | none => none
  | some ta =>
    if counts.1 ≤ ta then
      match threshold.lookup "b" with
      | none => none
      | some tb =>
        if counts.2.1 ≤ tb then
          match threshold.lookup "c" with
          | none => none
          | some tc => some (counts.2.2 ≤ tc)
        else some false
    else some false

/-- Source `respect_defects(threshold, start, end, roll_defects)`. -/
def respect_defects (threshold : List (String × Int)) (start stop : Int)
    (roll_defects : Int → List (String × Int)) : Option Bool :=
  (sumDefects roll_defects start stop).bind (checkThreshold threshold)

/-- Loop body of `fitness_1`: state is the enumeration index `i`, the running
`score`, the current run length `size` and `last_elem`; the final `score -= size`
flush is performed in the base case. -/
def fitness_1_go (biscuits : Int → Option Biscuit)
    (roll_defects : Int → List (String × Int)) :
    List Int → Nat → Int → Nat → Int → Option Int
  | [], _, score, size, _ => some (score - (size : Int))
  | elem :: rest, i, score, size, last_elem =>
    if elem = -1 then
      fitness_1_go biscuits roll_defects rest (i + 1) (score - (1 + (size : Int))) 0 elem
    else
      let sc := if elem ≠ last_elem then score - (size : Int) else score
      let sz := if elem ≠ last_elem then 1 else size + 1
      match biscuits elem with
      | none => none
      | some b =>
        if (sz : Int) = b.size then
          match respect_defects b.threshold ((i : Int) - (sz : Int) + 1) ((i : Int) + 1)
              roll_defects with
          | none => none
          | some true =>
            fitness_1_go biscuits roll_defects rest (i + 1) (sc + b.value) 0 elem
          | some false =>
            fitness_1_go biscuits roll_defects rest (i + 1) (sc - 1) (sz - 1) elem
        else fitness_1_go biscuits roll_defects rest (i + 1) sc sz elem

/-- Source `fitness_1(ind, biscuits_list, roll_defects)`: strict evaluator. -/
def fitness_1 (ind : List Int) (biscuits : Int → Option Biscuit)
    (roll_defects : Int → List (String × Int)) : Option Int :=
  fitness_1_go biscuits roll_defects ind 0 0 0 (-2)

/-- Inner `while j <= len(unassigned) - last_size` loop of `get_slice_score`.
The outer loop only enters it with `last_size ≥ 1` (at `last_size = 0` the
Python loop would not terminate), so the current `last_size` is carried as
`ls + 1`.  Returns the updated score together with the `assigned` list. -/
def sliceInner (unassigned : List Int) (ls : Nat) (lb_size : Nat) (lb_value : ℚ)
    (lb_threshold : List (String × Int)) (roll_defects : Int → List (String × Int))
    (j : Nat) (score : ℚ) (assigned : List Int) : Option (ℚ × List Int) :=
  if _h : (j : Int) ≤ (unassigned.length : Int) - ((ls : Int) + 1) then
    match unassigned[j]? with
    | none => none
    | some pos =>
      if (intRange pos (pos + ((ls : Int) + 1))).all (fun e => decide (e ∈ unassigned)) then
        match respect_defects lb_threshold pos (pos + ((ls : Int) + 1)) roll_defects with
        | none => none
        | some true =>
          sliceInner unassigned ls lb_size lb_value lb_threshold roll_defects
            (j + (ls + 1))
            (score + ((((ls : ℚ) + 1) / (lb_size : ℚ)) ^ 2) * lb_value)
            (assigned ++ intRange pos (pos + ((ls : Int) + 1)))
        | some false =>
          sliceInner unassigned ls lb_size lb_value lb_threshold roll_defects
            (j + 1) score assigned
      else
        sliceInner unassigned ls lb_size lb_value lb_threshold roll_defects
          (j + 1) score assigned
  else some (score, assigned)
termination_by unassigned.length + 1 - j
decreasing_by all_goals omega

/-- Outer `while unassigned and last_size != 0` loop of `get_slice_score`;
`last_size` strictly decreases, and the final `score -= len(unassigned)` is
applied at either exit. -/
def sliceOuter (lb_size : Nat) (lb_value : ℚ) (lb_threshold : List (String × Int))
    (roll_defects : Int → List (String × Int)) :
    Nat → List Int → ℚ → Option ℚ
  | 0, unassigned, score => some (score - (unassigned.length : ℚ))
  | ls + 1, unassigned, score =>
    if unassigned = [] then some (score - (unassigned.length : ℚ))
    else
      match sliceInner unassigned ls lb_size lb_value lb_threshold roll_defects
          0 score [] with
      | none => none
      | some (scoreNext, assigned) =>
        sliceOuter lb_size lb_value lb_threshold roll_defects ls
          (removeAll unassigned assigned) scoreNext

/-- Source `get_slice_score(position, size, lb_size, lb_value, lb_threshold,
roll_defects)`: greedy multi-pass packing of defect-valid sub-runs. -/
def get_slice_score (position : Int) (size : Nat) (lb_size : Nat) (lb_value : ℚ)
    (lb_threshold : List (String × Int))
    (roll_defects : Int → List (String × Int)) : Option ℚ :=
  sliceOuter lb_size lb_value lb_threshold roll_defects (min lb_size size)
    (intRange (position - (size : Int)) position) 0

/-- Numpy slice assignment `child[start:stop] = src[start:stop]` on arrays of
equal length (out-of-range positions of the slice are simply absent). -/
def writeSlice (child src : List Int) (start stop : Nat) : List Int :=
  (List.range child.length).map
    (fun k => if start ≤ k ∧ k < stop then src.getD k 0 else child.getD k 0)

/-- Crossover step of `evolve_pop`: three random breakpoints `b1 b2 b3`, the
implicit boundaries `0` and `len(parent1)`, sorted (numpy's value sort returns
the unique sorted arrangement); then
`for i in range(len(break_points) - 1): child[start:end] = chosen[start:end]`
with each segment's source decided by the coin flip for that segment
(`coins i = true` models `random.random() < 0.5`). -/
def crossover (parent1 parent2 : List Int) (b1 b2 b3 : Nat)
    (coins : Nat → Bool) : List Int :=
  let pts := List.insertionSort (· ≤ ·) [0, parent1.length, b1, b2, b3]
  (List.range (pts.length - 1)).foldl
    (fun child i =>
      writeSlice child (if coins i then parent1 else parent2)
        (pts.getD i 0) (pts.getD (i + 1) 0))
    (List.replicate parent1.length 0)

/-- Mutation step of `evolve_pop`:
`[gene if random.random() > mutation_rate else random.randint(-1, 3) for gene in child]`.
`u k` is the uniform draw for gene `k` (a value in `[0, 1)`), `v k` the random
replacement identifier drawn for it. -/
def mutate (child : List Int) (mutation_rate : ℚ) (u : Nat → ℚ) (v : Nat → Int) :
    List Int :=
  (List.range child.length).map
    (fun k => if mutation_rate < u k then child.getD k 0 else v k)

/-- Model of `np.argsort(fitness_values)`: the indices `0, …, N−1` sorted so
that the fitness values ascend along them.  Numpy leaves the order of tied
values implementation-defined; the model fixes the stable (insertion-sort)
tie-break. -/
def argsortQ (vals : List ℚ) : List Nat :=
  List.insertionSort (fun i j => vals.getD i 0 ≤ vals.getD j 0)
    (List.range vals.length)

/-- Source `np.argsort(fitness_values)[int(-len(population) * elite_ratio):]`. -/
def elite_indices (fitness_values : List ℚ) (n : Nat) (elite_ratio : ℚ) :
    List Nat :=
  pySlice (argsortQ fitness_values) (pyInt (-((n : ℚ) * elite_ratio)))

/-- Randomness consumed by one call to `evolve_pop`, indexed by offspring
number: the two sampled parent indices (drawn from the probability
distribution handed over as first argument), the three crossover breakpoints,
the per-segment coin flips, and the per-gene mutation draw and replacement. -/
structure Rng where
  parents : List ℚ → Nat → Nat × Nat
  bp : Nat → Nat × Nat × Nat
  coin : Nat → Nat → Bool
  mutU : Nat → Nat → ℚ
  mutV : Nat → Nat → Int

/-- Source `evolve_pop(population, mutation_rate, elite_ratio, biscuits_list,
roll_defects, fitness)`: score the population, keep the elite slice, then fill
the remaining `len(population) - len(elites)` slots with mutated crossover
children, returning `new_population + elites`. -/
def evolve_pop (population : List (List Int)) (mutation_rate elite_ratio : ℚ)
    (biscuits : Int → Option Biscuit) (roll_defects : Int → List (String × Int))
    (fitness : List Int → (Int → Option Biscuit) →
      (Int → List (String × Int)) → Option ℚ)
    (rng : Rng) : Option (List (List Int)) :=
  match mapOpt (fun ind => fitness ind biscuits roll_defects) population with
  | none => none
  | some fitness_values =>
    let elite_idx := elite_indices fitness_values population.length elite_ratio
    let elites := elite_idx.map (fun i => population.getD i [])
    match pyMin fitness_values with
    | none => none
    | some min_fitness =>
      let shifted_fitness := fitness_values.map (fun f => f - min_fitness + 1)
      let fitness_sum := shifted_fitness.sum
      let probabilities := shifted_fitness.map (fun f => f / fitness_sum)
      let offspring := (List.range (population.length - elites.length)).map
        (fun t =>
          let pr := rng.parents probabilities t
          let parent1 := population.getD pr.1 []
          let parent2 := population.getD pr.2 []
          let bps := rng.bp t
          let child := crossover parent1 parent2 bps.1 bps.2.1 bps.2.2 (rng.coin t)
          mutate child mutation_rate (rng.mutU t) (rng.mutV t))
      some (offspring ++ elites)

/-- Source `init_population(pop_size, roll_size)`; `initRng ind k` is the
random identifier drawn for position `k` of individual `ind`. -/
def init_population (pop_size roll_size : Nat) (initRng : Nat → Nat → Int) :
    List (List Int) :=
  (List.range pop_size).map (fun ind => (List.range roll_size).map (initRng ind))

/-- Generation loop of `genetic_algorithm`: `n` generations remain, `i` is the
current generation index.  When the `display` interval fires, the metric block
re-evaluates fitness on the fresh population and takes `argsort[-1]`, either of
which can raise; printing itself has no further effect on the state. -/
def ga_loop (mutation_rate elite_ratio : ℚ) (biscuits : Int → Option Biscuit)
    (roll_defects : Int → List (String × Int))
    (fitness : List Int → (Int → Option Biscuit) →
      (Int → List (String × Int)) → Option ℚ)
    (rng : Nat → Rng) (display : Nat) :
    Nat → Nat → List (List Int) → Option (List (List Int))
  | 0, _, population => some population
  | n + 1, i, population =>
    match evolve_pop population mutation_rate elite_ratio biscuits roll_defects
        fitness (rng i) with
    | none => none
    | some popNext =>
      if display ≠ 0 ∧ (i + 1) % display = 0 then
        match mapOpt (fun ind => fitness ind biscuits roll_defects) popNext with
        | none => none
        | some vals =>
          match (argsortQ vals).getLast? with
          | none => none
          | some _ =>
            ga_loop mutation_rate elite_ratio biscuits roll_defects fitness rng
              display n (i + 1) popNext
      else
        ga_loop mutation_rate elite_ratio biscuits roll_defects fitness rng
          display n (i + 1) popNext

/-- Source `genetic_algorithm(pop_size, mutation_rate, elite_ratio,
biscuits_list, roll_defects, roll_size, max_iter, display, fitness,
population=None, rtype="elite")`.  `display = 0` models `display=None`; a
negative `max_iter` makes `range(max_iter)` empty.  No configuration
validation of any kind is performed. -/
def genetic_algorithm (pop_size : Nat) (mutation_rate elite_ratio : ℚ)
    (biscuits : Int → Option Biscuit) (roll_defects : Int → List (String × Int))
    (roll_size : Nat) (max_iter : Int) (display : Nat)
    (fitness : List Int → (Int → Option Biscuit) →
      (Int → List (String × Int)) → Option ℚ)
    (population : Option (List (List Int))) (rtype : String)
    (rng : Nat → Rng) (initRng : Nat → Nat → Int) : Option (List (List Int)) :=
  let pop0 := match population with
    | none => init_population pop_size roll_size initRng
    | some p => p
  match ga_loop mutation_rate elite_ratio biscuits roll_defects fitness rng
      display max_iter.toNat 0 pop0 with
  | none => none
  | some finalPop =>
    if rtype ≠ "population" then
      match mapOpt (fun ind => fitness ind biscuits roll_defects) finalPop with
      | none => none
      | some vals =>
        match (argsortQ vals).getLast? with
        | none => none
        | some best => some [finalPop.getD best []]
    else some finalPop

/-! Concrete fixtures used by witnesses and counterexamples. -/

/-- Defect table whose every position has zero counts for a, b, c. -/
def rdAllZero : Int → List (String × Int) := fun _ => [("a", 0), ("b", 0), ("c", 0)]

/-- Catalog of the spec's end-to-end scenario, exactly as the spec writes it:
the empty type has an empty threshold map and type 0 has threshold `{a: 9}`. -/
def catalogScenario : Int → Option Biscuit := fun id =>
  if id = -1 then some ⟨-1, 1, []⟩
  else if id = 0 then some ⟨3, 4, [("a", 9)]⟩
  else none

/-- Scenario catalog with type 0's threshold completed to all three classes. -/
def catalogScenarioFull : Int → Option Biscuit := fun id =>
  if id = -1 then some ⟨-1, 1, []⟩
  else if id = 0 then some ⟨3, 4, [("a", 9), ("b", 9), ("c", 9)]⟩
  else none

/-- Chromosome of the spec's end-to-end scenario. -/
def chromScenario : List Int := [0, 0, 0, 0, -1, -1, -1, -1, -1, -1]

/-- Catalog with a single size-1 type whose threshold map only contains `a`. -/
def catalogOnlyA : Int → Option Biscuit := fun id =>
  if id = 0 then some ⟨1, 1, [("a", 0)]⟩ else none

/-- Defect table with one `a`-defect at every position. -/
def rdOneA : Int → List (String × Int) := fun _ => [("a", 1)]

/-! Helper lemmas. -/

theorem mapOpt_length {α β : Type} (f : α → Option β) :
    ∀ (l : List α) (ys : List β), mapOpt f l = some ys → ys.length = l.length := by
  intro l
  induction l with
  | nil => intro ys h; simp [mapOpt] at h; simp [← h]
  | cons x xs ih =>
    intro ys h
    simp only [mapOpt] at h
    cases hx : f x with
    | none => rw [hx] at h; simp at h
    | some y =>
      cases hxs : mapOpt f xs with
      | none => rw [hx, hxs] at h; simp at h
      | some ys2 =>
        rw [hx, hxs] at h
        simp at h
        subst h
        simp [ih ys2 hxs]

theorem range_map_getD {α : Type} (l : List α) (d : α) :
    (List.range l.length).map (fun k => l.getD k d) = l := by
  apply List.ext_getElem
  · simp
  · intro i h1 h2
    simp only [List.getElem_map, List.getElem_range]
    exact List.getD_eq_getElem l d h2

theorem foldl_addPosDefects_none (l : List (String × Int)) :
    l.foldl addPosDefects none = none := by
  induction l with
  | nil => rfl
  | cons x xs ih => simp [List.foldl_cons, addPosDefects, ih]

theorem foldl_addPosDefects_foreign (kv : String × Int)
    (ha : kv.1 ≠ "a") (hb : kv.1 ≠ "b") (hc : kv.1 ≠ "c") :
    ∀ (l : List (String × Int)), kv ∈ l → ∀ acc, l.foldl addPosDefects acc = none := by
  intro l
  induction l with
  | nil => intro h; simp at h
  | cons x xs ih =>
    intro hmem acc
    rcases List.mem_cons.mp hmem with h | h
    · subst h
      have hstep : addPosDefects acc kv = none := by
        cases acc with
        | none => rfl
        | some c => simp [addPosDefects, ha, hb, hc]
      simp [List.foldl_cons, hstep, foldl_addPosDefects_none]
    · exact ih h (addPosDefects acc x)

theorem foldl_posStep_none (rd : Int → List (String × Int)) (l : List Int) :
    l.foldl (fun acc p => (rd p).foldl addPosDefects acc) none = none := by
  induction l with
  | nil => rfl
  | cons x xs ih => simp [List.foldl_cons, foldl_addPosDefects_none, ih]

theorem foldl_posStep_foreign (rd : Int → List (String × Int))
    (kv : String × Int) (ha : kv.1 ≠ "a") (hb : kv.1 ≠ "b") (hc : kv.1 ≠ "c")
    (p : Int) (hkv : kv ∈ rd p) :
    ∀ (l : List Int), p ∈ l → ∀ acc,
      l.foldl (fun acc q => (rd q).foldl addPosDefects acc) acc = none := by
  intro l
  induction l with
  | nil => intro h; simp at h
  | cons x xs ih =>
    intro hmem acc
    rw [List.foldl_cons]
    rcases List.mem_cons.mp hmem with h | h
    · subst h
      rw [foldl_addPosDefects_foreign kv ha hb hc (rd p) hkv acc,
        foldl_posStep_none]
    · exact ih h _

theorem sumDefects_foreign (rd : Int → List (String × Int)) (s e : Int)
    (p : Int) (hp : p ∈ intRange s e) (kv : String × Int) (hkv : kv ∈ rd p)
    (ha : kv.1 ≠ "a") (hb : kv.1 ≠ "b") (hc : kv.1 ≠ "c") :
    sumDefects rd s e = none :=
  foldl_posStep_foreign rd kv ha hb hc p hkv (intRange s e) hp (some (0, 0, 0))

theorem fitness_1_go_empty (biscuits : Int → Option Biscuit)
    (rd : Int → List (String × Int)) :
    ∀ (n i : Nat) (s : Int) (l : Int),
      fitness_1_go biscuits rd (List.replicate n (-1)) i s 0 l = some (s - (n : Int)) := by
  intro n
  induction n with
  | zero => intro i s l; simp [fitness_1_go]
  | succ n ih =>
    intro i s l
    rw [List.replicate_succ]
    show fitness_1_go biscuits rd ((-1) :: List.replicate n (-1)) i s 0 l = _
    rw [fitness_1_go, if_pos rfl, ih]
    push_cast
    ring_nf

/-! Claim theorems. -/

/-- C5: for every N ≥ 1 and every catalog and defect table, the strict
evaluator applied to a chromosome of N positions all holding the empty-type
identifier returns exactly −N.  (The empty branch of `fitness_1` never
consults the catalog or the defect table.) -/
theorem strict_all_empty_score (n : Nat) (_hn : 1 ≤ n)
    (biscuits : Int → Option Biscuit) (rd : Int → List (String × Int)) :
    fitness_1 (List.replicate n (-1)) biscuits rd = some (-(n : Int)) := by
  unfold fitness_1
  rw [fitness_1_go_empty]
  norm_num

/-- Witness for C5 at N = 3 with the scenario catalog and the all-zero table. -/
theorem strict_all_empty_score_witness :
    fitness_1 (List.replicate 3 (-1)) catalogScenario rdAllZero = some (-(3 : Int)) :=
  strict_all_empty_score 3 (by decide) catalogScenario rdAllZero

/-- C4 counterexample: with the spec's literal scenario catalog — type 0's
threshold map being `{a: 9}`, missing keys b and c — the strict evaluator does
not return −3; completing the type-0 run forces `threshold["b"]` to be read
inside `respect_defects`, which raises a `KeyError` (modelled as `none`). -/
theorem scenario_threshold_keyerror_cex :
    ¬ (fitness_1 chromScenario catalogScenario rdAllZero = some (-(3 : Int))) := by
  decide

/-- C4 amended: the scenario computes −3 once type 0's threshold map carries
all three defect classes (here `{a: 9, b: 9, c: 9}`; any non-negative caps
work against the all-zero defect table): one completed type-0 run worth 3
minus 6 for the six empty positions. -/
theorem scenario_full_threshold_score :
    fitness_1 chromScenario catalogScenarioFull rdAllZero = some (-(3 : Int)) := by
  decide

/-- C10 counterexample: a threshold map that is referenced during scoring and
lacks keys b and c does not necessarily raise: the generator inside
`respect_defects` short-circuits on the first violated class, so with
threshold `{a: 0}` and one `a`-defect the evaluator returns the score −1
instead of failing. -/
theorem threshold_shortcircuit_cex :
    fitness_1 [0] catalogOnlyA rdOneA = some (-(1 : Int)) := by
  decide

/-- C10 amended: a key-lookup failure does occur whenever the missing
threshold key is actually reached — in particular a consulted threshold map
with no "a" key always raises — and whenever a scanned position's defect map
contains a class outside a, b, c; a violated earlier threshold instead
short-circuits and yields a score. -/
theorem threshold_keyerror_conditions (threshold : List (String × Int))
    (s e : Int) (rd : Int → List (String × Int)) :
    (threshold.lookup "a" = none → respect_defects threshold s e rd = none) ∧
    (∀ p ∈ intRange s e, ∀ kv ∈ rd p,
      kv.1 ≠ "a" → kv.1 ≠ "b" → kv.1 ≠ "c" →
        respect_defects threshold s e rd = none) := by
  constructor
  · intro hA
    unfold respect_defects
    cases hsum : sumDefects rd s e with
    | none => rfl
    | some c => simp [checkThreshold, hA]
  · intro p hp kv hkv ha hb hc
    unfold respect_defects
    rw [sumDefects_foreign rd s e p hp kv hkv ha hb hc]
    rfl

/-- Witness for C10's amended statement: the empty threshold map makes
`respect_defects` fail on the all-zero defect table. -/
theorem threshold_keyerror_conditions_witness :
    respect_defects [] 0 1 rdAllZero = none :=
  (threshold_keyerror_conditions [] 0 1 rdAllZero).1 rfl

/-- C8 counterexample: with mutation rate 0 the code keeps a gene only when
its uniform draw satisfies `random.random() > 0`; the draw 0, a legitimate
outcome of `random.random()` on `[0, 1)`, fails the strict comparison and the
gene is replaced (here 5 becomes 7). -/
theorem mutation_zero_draw_cex :
    mutate [5] 0 (fun _ => 0) (fun _ => 7) ≠ [5] := by
  decide

/-- C8 amended: with mutation rate 0 the mutation step changes no gene of any
chromosome for every outcome of the per-gene draws in which each draw is
strictly positive; only the boundary draw of exactly 0 replaces a gene. -/
theorem mutation_rate_zero_pos_draws (child : List Int) (u : Nat → ℚ)
    (v : Nat → Int) (hu : ∀ k, 0 < u k) :
    mutate child 0 u v = child := by
  unfold mutate
  have h1 : ∀ k, (if (0 : ℚ) < u k then child.getD k 0 else v k) = child.getD k 0 :=
    fun k => if_pos (hu k)
  simp only [h1]
  exact range_map_getD child 0

/-- Witness for C8's amended statement at a concrete chromosome and draws. -/
theorem mutation_rate_zero_pos_draws_witness :
    mutate [5, 6, 7] 0 (fun _ => 1) (fun _ => 9) = [5, 6, 7] :=
  mutation_rate_zero_pos_draws [5, 6, 7] (fun _ => 1) (fun _ => 9)
    (fun _ => one_pos)

/-! Lemmas about `intRange` and the slice-scorer loops, used for C6. -/

theorem intRange_length (a b : Int) : (intRange a b).length = (b - a).toNat := by
  simp [intRange]

theorem intRange_getElem_zero (a b : Int) (h : a < b) :
    (intRange a b)[0]? = some a := by
  unfold intRange
  rw [List.getElem?_map, List.getElem?_range (by omega : 0 < (b - a).toNat)]
  simp

theorem mem_intRange {x a b : Int} : x ∈ intRange a b ↔ a ≤ x ∧ x < b := by
  unfold intRange
  simp only [List.mem_map, List.mem_range]
  constructor
  · rintro ⟨k, hk, rfl⟩
    omega
  · intro h
    exact ⟨(x - a).toNat, by omega, by omega⟩

theorem removeAll_self : ∀ l : List Int, removeAll l l = [] := by
  intro l
  induction l with
  | nil => rfl
  | cons x xs ih =>
    show (x :: xs).foldl (fun u a => u.erase a) (x :: xs) = []
    rw [List.foldl_cons, List.erase_cons_head]
    exact ih

theorem sliceOuter_nil (R : Nat) (v : ℚ) (th : List (String × Int))
    (rd : Int → List (String × Int)) (s : ℚ) :
    ∀ ls, sliceOuter R v th rd ls [] s = some s := by
  intro ls
  cases ls with
  | zero => simp [sliceOuter]
  | succ n => simp [sliceOuter]

theorem sliceInner_exit (u : List Int) (ls R : Nat) (v : ℚ)
    (th : List (String × Int)) (rd : Int → List (String × Int))
    (j : Nat) (s : ℚ) (a : List Int)
    (h : ¬ ((j : Int) ≤ (u.length : Int) - ((ls : Int) + 1))) :
    sliceInner u ls R v th rd j s a = some (s, a) := by
  rw [sliceInner, dif_neg h]

theorem sliceInner_hit (u : List Int) (ls R : Nat) (v : ℚ)
    (th : List (String × Int)) (rd : Int → List (String × Int))
    (j : Nat) (s : ℚ) (a : List Int) (pos : Int)
    (hj : (j : Int) ≤ (u.length : Int) - ((ls : Int) + 1))
    (hget : u[j]? = some pos)
    (hall : (intRange pos (pos + ((ls : Int) + 1))).all
      (fun e => decide (e ∈ u)) = true)
    (hvalid : respect_defects th pos (pos + ((ls : Int) + 1)) rd = some true) :
    sliceInner u ls R v th rd j s a =
      sliceInner u ls R v th rd (j + (ls + 1))
        (s + ((((ls : ℚ) + 1) / (R : ℚ)) ^ 2) * v)
        (a ++ intRange pos (pos + ((ls : Int) + 1))) := by
  rw [sliceInner, dif_pos hj, hget]
  simp only [hall, if_true, hvalid]

/-- C6: a maximal run of observed length L with 1 ≤ L < required length R
whose whole occupied range `[position − L, position)` is defect-valid is
scored by `get_slice_score` as exactly `value * (L/R)^2`, and that
contribution is strictly positive whenever the type's value is. -/
theorem slice_partial_credit (position : Int) (L R : Nat) (value : ℚ)
    (threshold : List (String × Int)) (rd : Int → List (String × Int))
    (hL : 1 ≤ L) (hLR : L < R)
    (hvalid : respect_defects threshold (position - (L : Int)) position rd = some true) :
    get_slice_score position L R value threshold rd =
      some (value * ((L : ℚ) / (R : ℚ)) ^ 2) ∧
    (0 < value → 0 < value * ((L : ℚ) / (R : ℚ)) ^ 2) := by
  obtain ⟨n, rfl⟩ : ∃ n, L = n + 1 := ⟨L - 1, by omega⟩
  constructor
  · unfold get_slice_score
    have hmin : min R (n + 1) = n + 1 := by omega
    rw [hmin]
    have hulen : (intRange (position - ((n + 1 : Nat) : Int)) position).length = n + 1 := by
      rw [intRange_length]; omega
    have hne : intRange (position - ((n + 1 : Nat) : Int)) position ≠ [] := by
      intro h
      rw [h] at hulen
      simp at hulen
    have hstop : (position - ((n + 1 : Nat) : Int)) + ((n : Int) + 1) = position := by
      push_cast
      ring
    have hget : (intRange (position - ((n + 1 : Nat) : Int)) position)[0]? =
        some (position - ((n + 1 : Nat) : Int)) :=
      intRange_getElem_zero _ _ (by push_cast; omega)
    have hrange : intRange (position - ((n + 1 : Nat) : Int))
        ((position - ((n + 1 : Nat) : Int)) + ((n : Int) + 1)) =
        intRange (position - ((n + 1 : Nat) : Int)) position := by
      rw [hstop]
    simp only [sliceOuter, if_neg hne]
    rw [sliceInner_hit _ _ _ _ _ _ _ _ _ _
        (by rw [hulen]; push_cast; omega)
        hget
        (by
          rw [hrange]
          exact List.all_eq_true.mpr (fun e he => decide_eq_true he))
        (by rw [hstop]; exact hvalid)]
    rw [sliceInner_exit _ _ _ _ _ _ _ _ _
        (by rw [hulen]; push_cast; omega)]
    simp only [List.nil_append, hrange, removeAll_self, sliceOuter_nil]
    congr 1
    push_cast
    ring
  · intro hv
    have hRpos : (0 : ℚ) < (R : ℚ) := by
      have : 0 < R := by omega
      exact_mod_cast this
    have hLpos : (0 : ℚ) < ((n + 1 : Nat) : ℚ) := by
      exact_mod_cast Nat.succ_pos n
    exact mul_pos hv (pow_pos (div_pos hLpos hRpos) 2)

/-- Witness for C6 at position 1, L = 1, R = 2, value 1, an all-zero threshold
against an empty defect table. -/
theorem slice_partial_credit_witness :
    get_slice_score 1 1 2 1 [("a", 0), ("b", 0), ("c", 0)] (fun _ => []) =
      some (1 * (((1 : Nat) : ℚ) / ((2 : Nat) : ℚ)) ^ 2) ∧
    (0 < (1 : ℚ) → 0 < 1 * (((1 : Nat) : ℚ) / ((2 : Nat) : ℚ)) ^ 2) :=
  slice_partial_credit 1 1 2 1 [("a", 0), ("b", 0), ("c", 0)] (fun _ => [])
    (by decide) (by decide) (by decide)

/-! Lemmas about `writeSlice` and sorted breakpoints, used for C7. -/

theorem writeSlice_length (child src : List Int) (s e : Nat) :
    (writeSlice child src s e).length = child.length := by
  simp [writeSlice]

theorem writeSlice_getD (child src : List Int) (s e k : Nat)
    (hk : k < child.length) :
    (writeSlice child src s e).getD k 0 =
      if s ≤ k ∧ k < e then src.getD k 0 else child.getD k 0 := by
  unfold writeSlice
  rw [List.getD_eq_getElem _ _ (by simpa using hk)]
  simp

theorem list_len5 {α : Type} (l : List α) (h : l.length = 5) :
    ∃ a b c d e, l = [a, b, c, d, e] := by
  rcases l with _ | ⟨a, l⟩; · simp at h
  rcases l with _ | ⟨b, l⟩; · simp at h
  rcases l with _ | ⟨c, l⟩; · simp at h
  rcases l with _ | ⟨d, l⟩; · simp at h
  rcases l with _ | ⟨e, l⟩; · simp at h
  rcases l with _ | ⟨f, l⟩
  · exact ⟨a, b, c, d, e, rfl⟩
  · simp at h

/-- C7: a crossover child of two identical parents equals that parent at every
gene position, for every choice of the three distinct breakpoints inside the
chromosome and every outcome of the per-segment coin flips. -/
theorem crossover_identical_parents (p : List Int) (b1 b2 b3 : Nat)
    (coins : Nat → Bool)
    (_hb1 : b1 < p.length) (_hb2 : b2 < p.length) (_hb3 : b3 < p.length)
    (_h12 : b1 ≠ b2) (_h13 : b1 ≠ b3) (_h23 : b2 ≠ b3) :
    crossover p p b1 b2 b3 coins = p := by
  unfold crossover
  simp only [ite_self]
  have hperm : List.Perm (List.insertionSort (· ≤ ·) [0, p.length, b1, b2, b3])
      [0, p.length, b1, b2, b3] := List.perm_insertionSort _ _
  have hsort : List.Sorted (· ≤ ·)
      (List.insertionSort (· ≤ ·) [0, p.length, b1, b2, b3]) :=
    List.sorted_insertionSort _ _
  have hlen5 : (List.insertionSort (· ≤ ·) [0, p.length, b1, b2, b3]).length = 5 := by
    rw [hperm.length_eq]
    rfl
  have h0mem : (0 : Nat) ∈ List.insertionSort (· ≤ ·) [0, p.length, b1, b2, b3] :=
    hperm.mem_iff.mpr (by simp)
  have hnmem : p.length ∈ List.insertionSort (· ≤ ·) [0, p.length, b1, b2, b3] :=
    hperm.mem_iff.mpr (by simp)
  obtain ⟨q0, q1, q2, q3, q4, hq⟩ := list_len5 _ hlen5
  rw [hq] at h0mem hnmem hsort ⊢
  simp only [List.sorted_cons, List.mem_cons, List.not_mem_nil, or_false,
    List.mem_singleton, forall_eq_or_imp, forall_eq, List.sorted_nil,
    and_true] at hsort
  simp only [List.mem_cons, List.not_mem_nil, or_false] at h0mem hnmem
  have hq0 : q0 = 0 := by
    rcases h0mem with h | h | h | h | h <;> omega
  have hq4 : p.length ≤ q4 := by
    rcases hnmem with h | h | h | h | h <;> omega
  simp only [List.length_cons, List.length_nil]
  show (List.range (4 + 1 - 1)).foldl _ _ = p
  have hr4 : List.range (4 + 1 - 1) = [0, 1, 2, 3] := by
    simp [List.range_succ]
  rw [hr4]
  simp only [List.foldl_cons, List.foldl_nil]
  have hg0 : [q0, q1, q2, q3, q4].getD 0 0 = q0 := rfl
  have hg1 : [q0, q1, q2, q3, q4].getD 1 0 = q1 := rfl
  have hg2 : [q0, q1, q2, q3, q4].getD 2 0 = q2 := rfl
  have hg3 : [q0, q1, q2, q3, q4].getD 3 0 = q3 := rfl
  have hg4 : [q0, q1, q2, q3, q4].getD 4 0 = q4 := rfl
  rw [hg0, hg1, hg2, hg3, hg4]
  have hL0 : (List.replicate p.length (0 : Int)).length = p.length := by simp
  have hL1 : (writeSlice (List.replicate p.length 0) p q0 q1).length = p.length := by
    rw [writeSlice_length, hL0]
  have hL2 : (writeSlice (writeSlice (List.replicate p.length 0) p q0 q1) p q1 q2).length
      = p.length := by
    rw [writeSlice_length, hL1]
  have hL3 : (writeSlice (writeSlice (writeSlice (List.replicate p.length 0) p q0 q1)
      p q1 q2) p q2 q3).length = p.length := by
    rw [writeSlice_length, hL2]
  apply List.ext_getElem
  · rw [writeSlice_length, hL3]
  · intro k hk1 hk2
    have hcalc :
        (writeSlice (writeSlice (writeSlice (writeSlice (List.replicate p.length 0)
          p q0 q1) p q1 q2) p q2 q3) p q3 q4).getD k 0 = p.getD k 0 := by
      have hkp : k < p.length := hk2
      rw [writeSlice_getD _ _ _ _ _ (by rw [hL3]; exact hkp)]
      rw [writeSlice_getD _ _ _ _ _ (by rw [hL2]; exact hkp)]
      rw [writeSlice_getD _ _ _ _ _ (by rw [hL1]; exact hkp)]
      rw [writeSlice_getD _ _ _ _ _ (by rw [hL0]; exact hkp)]
      split_ifs <;> first | rfl | omega
    rw [List.getD_eq_getElem _ _ hk1, List.getD_eq_getElem _ _ hk2] at hcalc
    exact hcalc

/-- Witness for C7 on a length-3 chromosome with breakpoints 0, 1, 2. -/
theorem crossover_identical_parents_witness :
    crossover [4, 5, 6] [4, 5, 6] 0 1 2 (fun k => k % 2 = 0) = [4, 5, 6] :=
  crossover_identical_parents [4, 5, 6] 0 1 2 (fun k => k % 2 = 0)
    (by decide) (by decide) (by decide) (by decide) (by decide) (by decide)

/-! Lemmas about `argsortQ`, `pySlice` and `pyInt`, used for C1, C2, C3, C9. -/

theorem argsortQ_perm (vals : List ℚ) :
    List.Perm (argsortQ vals) (List.range vals.length) :=
  List.perm_insertionSort _ _

theorem argsortQ_length (vals : List ℚ) :
    (argsortQ vals).length = vals.length := by
  rw [(argsortQ_perm vals).length_eq, List.length_range]

theorem argsortQ_sorted (vals : List ℚ) :
    List.Pairwise (fun i j => vals.getD i 0 ≤ vals.getD j 0) (argsortQ vals) := by
  haveI : IsTotal Nat (fun i j => vals.getD i 0 ≤ vals.getD j 0) :=
    ⟨fun a b => le_total _ _⟩
  haveI : IsTrans Nat (fun i j => vals.getD i 0 ≤ vals.getD j 0) :=
    ⟨fun _ _ _ hab hbc => le_trans hab hbc⟩
  exact List.sorted_insertionSort _ _

theorem pySlice_length_le {α : Type} (l : List α) (k : Int) :
    (pySlice l k).length ≤ l.length := by
  unfold pySlice
  split <;> simp

theorem pyInt_neg_of_nonneg (q : ℚ) (h : 0 ≤ q) : pyInt (-q) = -⌊q⌋ := by
  unfold pyInt
  rcases eq_or_lt_of_le h with heq | hlt
  · rw [← heq]
    norm_num
  · rw [if_neg (by simpa using hlt), Int.ceil_neg]

theorem elite_indices_length_le (vals : List ℚ) (n : Nat) (r : ℚ) :
    (elite_indices vals n r).length ≤ vals.length := by
  unfold elite_indices
  calc (pySlice (argsortQ vals) (pyInt (-((n : ℚ) * r)))).length
      ≤ (argsortQ vals).length := pySlice_length_le _ _
    _ = vals.length := argsortQ_length vals

/-- C1: for every input population of size N ≥ 1, every elite ratio in [0, 1],
every evaluator outcome and every randomness outcome, `evolve_pop` succeeds
and returns a population of size exactly N (retained elites plus generated
offspring fill the size exactly). -/
theorem evolve_pop_preserves_size (population : List (List Int)) (n : Nat)
    (mutation_rate elite_ratio : ℚ) (biscuits : Int → Option Biscuit)
    (roll_defects : Int → List (String × Int))
    (fitness : List Int → (Int → Option Biscuit) →
      (Int → List (String × Int)) → Option ℚ)
    (rng : Rng) (vals : List ℚ)
    (hlen : population.length = n) (hn : 1 ≤ n)
    (_hr0 : 0 ≤ elite_ratio) (_hr1 : elite_ratio ≤ 1)
    (hv : mapOpt (fun ind => fitness ind biscuits roll_defects) population
      = some vals) :
    ∃ res, evolve_pop population mutation_rate elite_ratio biscuits roll_defects
        fitness rng = some res ∧ res.length = n := by
  subst hlen
  have hvlen : vals.length = population.length :=
    mapOpt_length _ _ _ hv
  obtain ⟨v0, vrest, rfl⟩ : ∃ v0 vrest, vals = v0 :: vrest := by
    cases vals with
    | nil => exfalso; rw [List.length_nil] at hvlen; omega
    | cons a l => exact ⟨a, l, rfl⟩
  have hE : (elite_indices (v0 :: vrest) population.length elite_ratio).length
      ≤ population.length := by
    calc (elite_indices (v0 :: vrest) population.length elite_ratio).length
        ≤ (v0 :: vrest).length := elite_indices_length_le _ _ _
      _ = population.length := hvlen
  unfold evolve_pop
  rw [hv]
  refine ⟨_, rfl, ?_⟩
  simp only [List.length_append, List.length_map, List.length_range]
  omega

/-- Witness for C1 at a singleton population with elite ratio 1. -/
theorem evolve_pop_preserves_size_witness :
    ∃ res, evolve_pop [[0]] 0 1 (fun _ => none) (fun _ => [])
        (fun _ _ _ => some 0)
        ⟨fun _ _ => (0, 0), fun _ => (0, 0, 0), fun _ _ => true,
          fun _ _ => 1, fun _ _ => 0⟩ = some res ∧ res.length = 1 :=
  evolve_pop_preserves_size [[0]] 1 0 1 (fun _ => none) (fun _ => [])
    (fun _ _ _ => some 0)
    ⟨fun _ _ => (0, 0), fun _ => (0, 0, 0), fun _ _ => true,
      fun _ _ => 1, fun _ _ => 0⟩ [0]
    rfl (by decide) (by decide) (by decide) rfl

/-- C9: whenever 0 ≤ elite_ratio · N < 1 (in particular elite_ratio = 0) the
elite slice `argsort(...)[0:]` is the whole population: `evolve_pop` returns
exactly the input chromosomes reordered by ascending fitness, produces zero
offspring, and applies no crossover or mutation. -/
theorem degenerate_elite_whole_population (population : List (List Int)) (n : Nat)
    (mutation_rate elite_ratio : ℚ) (biscuits : Int → Option Biscuit)
    (roll_defects : Int → List (String × Int))
    (fitness : List Int → (Int → Option Biscuit) →
      (Int → List (String × Int)) → Option ℚ)
    (rng : Rng) (vals : List ℚ)
    (hlen : population.length = n) (hn : 1 ≤ n)
    (hr0 : 0 ≤ elite_ratio) (hsmall : (n : ℚ) * elite_ratio < 1)
    (hv : mapOpt (fun ind => fitness ind biscuits roll_defects) population
      = some vals) :
    ∃ res, evolve_pop population mutation_rate elite_ratio biscuits roll_defects
        fitness rng = some res ∧
      res = (argsortQ vals).map (fun i => population.getD i []) ∧
      List.Perm res population ∧
      List.Pairwise (· ≤ ·) ((argsortQ vals).map (fun i => vals.getD i 0)) := by
  subst hlen
  have hvlen : vals.length = population.length :=
    mapOpt_length _ _ _ hv
  obtain ⟨v0, vrest, rfl⟩ : ∃ v0 vrest, vals = v0 :: vrest := by
    cases vals with
    | nil => exfalso; rw [List.length_nil] at hvlen; omega
    | cons a l => exact ⟨a, l, rfl⟩
  have hfloor : ⌊(population.length : ℚ) * elite_ratio⌋ = 0 := by
    rw [Int.floor_eq_zero_iff]
    exact ⟨mul_nonneg (Nat.cast_nonneg _) hr0, hsmall⟩
  have hidx : elite_indices (v0 :: vrest) population.length elite_ratio
      = argsortQ (v0 :: vrest) := by
    unfold elite_indices
    rw [pyInt_neg_of_nonneg _ (mul_nonneg (Nat.cast_nonneg _) hr0), hfloor]
    simp [pySlice]
  have hzero : population.length
      - (elite_indices (v0 :: vrest) population.length elite_ratio).length = 0 := by
    rw [hidx, argsortQ_length, hvlen]
    omega
  have hmapeq : (List.range (v0 :: vrest).length).map
      (fun i => population.getD i []) = population := by
    rw [hvlen]
    exact range_map_getD population []
  unfold evolve_pop
  rw [hv]
  refine ⟨_, rfl, ?_, ?_, ?_⟩
  · simp only [List.length_map]
    rw [hzero, hidx]
    simp
  · simp only [List.length_map]
    rw [hzero, hidx]
    simp only [List.range_zero, List.map_nil, List.nil_append]
    refine ((argsortQ_perm (v0 :: vrest)).map _).trans ?_
    rw [hmapeq]
  · exact (argsortQ_sorted (v0 :: vrest)).map _ (fun a b h => h)

/-- Witness for C9 at a two-chromosome population with elite ratio 0. -/
theorem degenerate_elite_whole_population_witness :
    ∃ res, evolve_pop [[7], [8]] 0 0 (fun _ => none) (fun _ => [])
        (fun _ _ _ => some 0)
        ⟨fun _ _ => (0, 0), fun _ => (0, 0, 0), fun _ _ => true,
          fun _ _ => 1, fun _ _ => 0⟩ = some res ∧
      res = (argsortQ ([0, 0] : List ℚ)).map (fun i => [[7], [8]].getD i []) ∧
      List.Perm res [[7], [8]] ∧
      List.Pairwise (· ≤ ·)
        ((argsortQ ([0, 0] : List ℚ)).map (fun i => ([0, 0] : List ℚ).getD i 0)) :=
  degenerate_elite_whole_population [[7], [8]] 2 0 0 (fun _ => none) (fun _ => [])
    (fun _ _ _ => some 0)
    ⟨fun _ _ => (0, 0), fun _ => (0, 0, 0), fun _ _ => true,
      fun _ _ => 1, fun _ _ => 0⟩ ([0, 0] : List ℚ)
    rfl (by decide) (by decide) (by norm_num) rfl

theorem pairwise_take_drop {α : Type} {R : α → α → Prop} {l : List α}
    (h : List.Pairwise R l) (m : Nat) :
    ∀ i ∈ l.take m, ∀ j ∈ l.drop m, R i j := by
  have h2 : List.Pairwise R (l.take m ++ l.drop m) := by
    rw [List.take_append_drop]
    exact h
  exact (List.pairwise_append.mp h2).2.2

/-- Characterisation of the elite slice for 0 ≤ r ≤ 1: with
t = ⌊N·r⌋ (Python `int(-N * r)` negated), the slice is the last t entries of
the argsort when t ≥ 1 and the whole argsort when t = 0. -/
theorem elite_indices_cases (vals : List ℚ) (n : Nat) (r : ℚ)
    (hvlen : vals.length = n) (hr0 : 0 ≤ r) (hr1 : r ≤ 1) :
    (elite_indices vals n r = (argsortQ vals).drop
        (n - (if (⌊(n : ℚ) * r⌋).toNat = 0 then n else (⌊(n : ℚ) * r⌋).toNat))) ∧
    (elite_indices vals n r).length =
      (if (⌊(n : ℚ) * r⌋).toNat = 0 then n else (⌊(n : ℚ) * r⌋).toNat) := by
  have hq0 : (0 : ℚ) ≤ (n : ℚ) * r := mul_nonneg (Nat.cast_nonneg n) hr0
  have hfl0 : 0 ≤ ⌊(n : ℚ) * r⌋ := Int.floor_nonneg.mpr hq0
  have hfln : ⌊(n : ℚ) * r⌋ ≤ (n : Int) := by
    have h1 : (n : ℚ) * r ≤ (n : ℚ) := mul_le_of_le_one_right (Nat.cast_nonneg n) hr1
    calc ⌊(n : ℚ) * r⌋ ≤ ⌊(n : ℚ)⌋ := Int.floor_le_floor h1
      _ = (n : Int) := Int.floor_natCast n
  have halen : (argsortQ vals).length = n := by rw [argsortQ_length, hvlen]
  unfold elite_indices
  rw [pyInt_neg_of_nonneg _ hq0]
  by_cases h : ⌊(n : ℚ) * r⌋ = 0
  · rw [h]
    simp [pySlice, halen]
  · have hto : ¬ ((⌊(n : ℚ) * r⌋).toNat = 0) := by omega
    rw [if_neg hto]
    unfold pySlice
    rw [if_neg (by omega : ¬ ((0 : Int) ≤ -⌊(n : ℚ) * r⌋))]
    constructor
    · rw [halen]
      simp
    · rw [List.length_drop, halen]
      omega

/-- C2 corrected: the elite count is the truncation `int(-N·r)` negated, i.e.
⌊N·r⌋ when ⌊N·r⌋ ≥ 1 and the whole population (N elites) when ⌊N·r⌋ = 0 — not
⌈N·r⌉.  Those elites are the top chromosomes by fitness under the model's
stable tie-break: every dropped index's fitness is at most every kept index's
fitness, every elite index is in range, and the elites appear unmodified as
the tail of the next generation. -/
theorem elite_count_trunc (vals : List ℚ) (n : Nat) (elite_ratio : ℚ)
    (hvlen : vals.length = n) (hn : 1 ≤ n) (hr0 : 0 ≤ elite_ratio)
    (hr1 : elite_ratio ≤ 1) :
    ((elite_indices vals n elite_ratio).length =
      if (⌊(n : ℚ) * elite_ratio⌋).toNat = 0 then n
      else (⌊(n : ℚ) * elite_ratio⌋).toNat) ∧
    (∀ i ∈ (argsortQ vals).take (n - (elite_indices vals n elite_ratio).length),
      ∀ j ∈ elite_indices vals n elite_ratio, vals.getD i 0 ≤ vals.getD j 0) ∧
    (∀ i ∈ elite_indices vals n elite_ratio, i < n) ∧
    (∀ (population : List (List Int)) (mutation_rate : ℚ)
        (biscuits : Int → Option Biscuit)
        (roll_defects : Int → List (String × Int))
        (fitness : List Int → (Int → Option Biscuit) →
          (Int → List (String × Int)) → Option ℚ)
        (rng : Rng) (res : List (List Int)),
      population.length = n →
      mapOpt (fun ind => fitness ind biscuits roll_defects) population = some vals →
      evolve_pop population mutation_rate elite_ratio biscuits roll_defects
        fitness rng = some res →
      res.drop (res.length - (elite_indices vals n elite_ratio).length) =
        (elite_indices vals n elite_ratio).map (fun i => population.getD i [])) := by
  obtain ⟨hdropEq, hlenEq⟩ := elite_indices_cases vals n elite_ratio hvlen hr0 hr1
  refine ⟨hlenEq, ?_, ?_, ?_⟩
  · intro i hi j hj
    rw [hlenEq] at hi
    rw [hdropEq] at hj
    exact pairwise_take_drop (argsortQ_sorted vals) _ i hi j hj
  · intro i hi
    rw [hdropEq] at hi
    have h1 : i ∈ argsortQ vals := List.mem_of_mem_drop hi
    have h2 : i < vals.length :=
      List.mem_range.mp ((argsortQ_perm vals).subset h1)
    omega
  · intro population mutation_rate biscuits roll_defects fitness rng res
      hplen hv hres
    obtain ⟨v0, vrest, hvc⟩ : ∃ v0 vrest, vals = v0 :: vrest := by
      cases vals with
      | nil => exfalso; rw [List.length_nil] at hvlen; omega
      | cons a l => exact ⟨a, l, rfl⟩
    subst hvc
    unfold evolve_pop at hres
    rw [hv] at hres
    simp only [pyMin] at hres
    rw [Option.some_inj] at hres
    subst hres
    rw [hplen]
    rw [List.length_append,
      List.length_map (elite_indices (v0 :: vrest) n elite_ratio),
      Nat.add_sub_cancel]
    exact List.drop_left _ _

/-- C2 counterexample: with two chromosomes and elite ratio 3/4 the code keeps
`int(-2 * 0.75) = -1`, i.e. a single elite, whereas the claim's
`ceil(0.75 * 2) = 2` would require both chromosomes to pass through. -/
theorem elite_count_not_ceil_cex :
    (elite_indices ([0, 1] : List ℚ) 2 (3 / 4)).length ≠
      (⌈(((2 : Nat)) : ℚ) * (3 / 4)⌉).toNat := by
  have h := (elite_indices_cases ([0, 1] : List ℚ) 2 (3 / 4) rfl
    (by norm_num) (by norm_num)).2
  rw [h]
  have hc : (⌈(3 / 2 : ℚ)⌉ : Int) = 2 := by
    rw [Int.ceil_eq_iff]
    constructor <;> norm_num
  norm_num [hc]
  decide

/-- Witness for C2's amended count at elite ratio 1 on two chromosomes. -/
theorem elite_count_trunc_witness :
    (elite_indices ([0, 1] : List ℚ) 2 1).length =
      if (⌊(((2 : Nat)) : ℚ) * 1⌋).toNat = 0 then 2
      else (⌊(((2 : Nat)) : ℚ) * 1⌋).toNat :=
  (elite_count_trunc ([0, 1] : List ℚ) 2 1 rfl (by decide)
    (by decide) (by decide)).1

/-! C3: validation behaviour of the Evolution Driver. -/

theorem ga_loop_zero (mutation_rate elite_ratio : ℚ)
    (biscuits : Int → Option Biscuit) (roll_defects : Int → List (String × Int))
    (fitness : List Int → (Int → Option Biscuit) →
      (Int → List (String × Int)) → Option ℚ)
    (rng : Nat → Rng) (display i : Nat) (population : List (List Int)) :
    ga_loop mutation_rate elite_ratio biscuits roll_defects fitness rng display
      0 i population = some population := rfl

/-- C3 counterexample: an invalid configuration — mutation rate 2, elite
ratio −1, generation count −1 — is not rejected and no error is surfaced: the
driver treats the negative generation count as zero iterations and still
returns a best-of-population result. -/
theorem driver_no_validation_cex :
    genetic_algorithm 1 2 (-1) (fun _ => none) (fun _ => []) 5 (-1) 0
      (fun _ _ _ => some 0) (some [[0]]) "elite"
      (fun _ => ⟨fun _ _ => (0, 0), fun _ => (0, 0, 0), fun _ _ => true,
        fun _ _ => 1, fun _ _ => 0⟩) (fun _ _ => 0) = some [[0]] := by
  rfl

/-- C3 amended: the Evolution Driver performs no configuration validation of
any kind.  For any mutation rate, elite ratio, population size or strip
length, a supplied non-empty population whose evaluation succeeds and a
non-positive generation count (negative counts behave as zero) make the
driver return a result instead of surfacing an error. -/
theorem driver_accepts_invalid_config (pop_size : Nat)
    (mutation_rate elite_ratio : ℚ) (biscuits : Int → Option Biscuit)
    (roll_defects : Int → List (String × Int)) (roll_size : Nat)
    (max_iter : Int)
    (fitness : List Int → (Int → Option Biscuit) →
      (Int → List (String × Int)) → Option ℚ)
    (rng : Nat → Rng) (initRng : Nat → Nat → Int)
    (population : List (List Int)) (vals : List ℚ)
    (hmi : max_iter ≤ 0) (hpop : population ≠ [])
    (hv : mapOpt (fun ind => fitness ind biscuits roll_defects) population
      = some vals) :
    ∃ res, genetic_algorithm pop_size mutation_rate elite_ratio biscuits
        roll_defects roll_size max_iter 0 fitness (some population) "elite"
        rng initRng = some res := by
  have h0 : max_iter.toNat = 0 := Int.toNat_of_nonpos hmi
  have hvne : vals ≠ [] := by
    intro hcon
    have hl := mapOpt_length _ _ _ hv
    rw [hcon, List.length_nil] at hl
    exact hpop (List.length_eq_zero.mp hl.symm)
  have hane : argsortQ vals ≠ [] := by
    intro hcon
    have := argsortQ_length vals
    rw [hcon, List.length_nil] at this
    exact hvne (List.length_eq_zero.mp this.symm)
  obtain ⟨b, hb⟩ : ∃ b, (argsortQ vals).getLast? = some b := by
    cases hcase : (argsortQ vals).getLast? with
    | none => exact absurd (List.getLast?_eq_none_iff.mp hcase) hane
    | some b => exact ⟨b, rfl⟩
  unfold genetic_algorithm
  rw [h0]
  simp only [ga_loop_zero]
  rw [if_pos (by decide : ("elite" : String) ≠ "population")]
  simp only [hv, hb]
  exact ⟨_, rfl⟩

/-- Witness for C3's amended statement at a concretely invalid configuration:
mutation rate 2, elite ratio −1, generation count −1. -/
theorem driver_accepts_invalid_config_witness :
    ∃ res, genetic_algorithm 1 2 (-1) (fun _ => none) (fun _ => []) 5 (-1) 0
        (fun _ _ _ => some (0 : ℚ)) (some [[0]]) "elite"
        (fun _ => ⟨fun _ _ => (0, 0), fun _ => (0, 0, 0), fun _ _ => true,
          fun _ _ => 1, fun _ _ => 0⟩) (fun _ _ => 0) = some res :=
  driver_accepts_invalid_config 1 2 (-1) (fun _ => none) (fun _ => []) 5 (-1)
    (fun _ _ _ => some (0 : ℚ))
    (fun _ => ⟨fun _ _ => (0, 0), fun _ => (0, 0, 0), fun _ _ => true,
      fun _ _ => 1, fun _ _ => 0⟩) (fun _ _ => 0) [[0]] [0]
    (by decide) (by decide) rfl

end GA
